import Mathlib

/-!
A verification development for the weight-alignment core of
`mergekit/scripts/align_model_weights.py`.

Conventions of the shallow embedding:

* Float tensors are modelled as lists of rows over `ℚ` (exact arithmetic
  stands in for floating point, so `torch.allclose` is modelled as exact
  equality), except for the rotary-angle material which lives over `ℝ`
  because it uses `cos`/`sin`.
* `scipy.optimize.linear_sum_assignment(..., maximize=True)` is not part of
  the repository; it is modelled as a deterministic maximum-weight matching
  over all permutations that keeps the earliest maximizer in enumeration
  order (the row-identity assignment is the first candidate).  The script
  relies on it only being a correct deterministic max-weight matcher.
* Failure paths (`raise RuntimeError`, torch/numpy shape errors for the
  in-place cost accumulation) are modelled with `Except`/`Option` values
  carrying the reported diagnostics.
* The `ModelPermuter` collaborator (tensor provider, consumer registry) is
  external to the script; the loop bookkeeping that the script itself owns
  (lines 179-332) is embedded with the provider's responses taken as
  parameters.
-/

namespace MergekitAlign

/-- A 2-D tensor, as a list of rows of exact rationals. -/
abbrev Tensor := List (List ℚ)

/-- Square (or rectangular) matrices use the same representation. -/
abbrev Mat := List (List ℚ)

/-- Leading dimension (`x.shape[0]`): the number of rows. -/
def tensorRows (x : Tensor) : ℕ := x.length

/-- Second dimension (`x.shape[1]`): the length of the first row. -/
def tensorCols (x : Tensor) : ℕ := (x.headD []).length

/-- A list of rows is an actual (rectangular) tensor. -/
def isRect (x : Tensor) : Bool := x.all fun r => r.length == tensorCols x

/-- Inner product of two rows. -/
def dotQ (u v : List ℚ) : ℚ := (List.zipWith (· * ·) u v).sum

/-- `out_dim = target_tensors[0].shape[0]` (line 123). -/
def out_dim (tgts : List Tensor) : ℕ := tensorRows (tgts.headD [])

/-- Shape conditions under which one step of the cost accumulation
`cost_mat += x_target @ x_model.T` (lines 167-168) is defined: both operands
are genuine tensors, the matrix product is defined (`x_target.shape[1] =
x_model.shape[1]`), and the product broadcasts into the `D × D` accumulator
(each dimension of the product is `D` or `1`). -/
def costShapeOk (D : ℕ) (p : Tensor × Tensor) : Bool :=
  isRect p.1 && isRect p.2 && (tensorCols p.1 == tensorCols p.2) &&
    (p.1.length == D || p.1.length == 1) && (p.2.length == D || p.2.length == 1)

/-- Row selection under numpy-style broadcasting: a one-row operand
contributes its single row everywhere. -/
def bRow (x : Tensor) (i : ℕ) : List ℚ := x.getD (if x.length = 1 then 0 else i) []

/-- Entry `(i, j)` of the accumulated cost matrix
`Σ_t  x_target_t @ x_model_t.T` (lines 164-168). -/
def costEntry (pairs : List (Tensor × Tensor)) (i j : ℕ) : ℚ :=
  (pairs.map fun p => dotQ (bRow p.1 i) (bRow p.2 j)).sum

/-- The fully accumulated `D × D` cost matrix
`Σ_t  x_target_t @ x_model_t.T` (lines 164-168). -/
def costMatrix (D : ℕ) (pairs : List (Tensor × Tensor)) : Tensor :=
  (List.range D).map fun i => (List.range D).map fun j => costEntry pairs i j

/-- The cost-matrix accumulation loop (lines 164-168): `none` where torch
raises a shape error on `@` or on the broadcasting `+=`. -/
def buildCost (D : ℕ) (pairs : List (Tensor × Tensor)) : Option Tensor :=
  if pairs.all (costShapeOk D) then some (costMatrix D pairs) else none

/-- Total assignment weight `Σ_k cost[ri_k, ci_k]` with `ri = 0, …, D-1`:
the quantity `linear_sum_assignment(..., maximize=True)` maximizes. -/
def permScore (cost : Tensor) (s : List ℕ) : ℚ :=
  ∑ i ∈ Finset.range s.length, (cost.getD i []).getD (s.getD i 0) 0

/-- Model of `scipy.optimize.linear_sum_assignment(cost, maximize=True)`
(line 170) restricted to the square case used by the script: the column
assignment `ci` is a maximum-weight choice among all permutations of
`0, …, D-1`, with a deterministic tie-break (earliest candidate wins; the
identity assignment is the first candidate). -/
def lsaMaximize (cost : Tensor) (D : ℕ) : List ℕ :=
  (List.range D).permutations.foldl
    (fun best c => if permScore cost best < permScore cost c then c else best)
    (List.range D)

/-- `model_to_base = zeros_like(cost); model_to_base[(ri, ci)] = 1`
(lines 171-172). -/
def permMatrix (D : ℕ) (ci : List ℕ) : Mat :=
  (List.range D).map fun i => (List.range D).map fun j =>
    if ci.getD i 0 = j then (1 : ℚ) else 0

/-- `torch.eye(n, m)`: ones on the main diagonal. -/
def eyeMat (n m : ℕ) : Mat :=
  (List.range n).map fun i => (List.range m).map fun j => if i = j then (1 : ℚ) else 0

/-- Failure modes of `align_tensors`: the fatal output-dimension mismatch of
lines 123-131 (carrying the logged diagnostics: expected dimension, the
found shapes, the implicated weight names), and a torch shape error raised
by the cost accumulation itself. -/
inductive AlignError where
  | dimMismatch (expected : ℕ) (shapes : List (ℕ × ℕ)) (weightNames : List String)
  | shapeError
  deriving DecidableEq

/-- `align_tensors` (lines 120-174) with `sinkhorn=False` (exact mode; the
entropic-transport branch is not under any claim).  `weightNames` models the
names read from `permuter.space_out_tensors[space]` for the diagnostic. -/
def align_tensors (ins tgts : List Tensor) (weightNames : List String) :
    Except AlignError Mat :=
  let D := out_dim tgts
  if tgts.all (fun x => tensorRows x == D) then
    match buildCost D (tgts.zip ins) with
    | some cost => Except.ok (permMatrix D (lsaMaximize cost D))
    | none => Except.error AlignError.shapeError
  else
    Except.error (AlignError.dimMismatch D
      (tgts.map fun x => (tensorRows x, tensorCols x)) weightNames)

/-- State owned by the alignment loop (lines 118, 179-332): the per-space
transform map, the per-head-group permutation map, the per-iteration change
counter, and a log of the consumer-update calls issued so far. -/
structure LoopState where
  transforms : String → Option Mat
  head_permutations : String → Option Mat
  change_count : ℕ
  notified : List String

/-- Point update of a string-keyed map. -/
def setFun (f : String → Option Mat) (k : String) (v : Mat) : String → Option Mat :=
  fun x => if x = k then some v else f x

/-- The fresh state at the start of `main`. -/
def initState : LoopState :=
  { transforms := fun _ => none
    head_permutations := fun _ => none
    change_count := 0
    notified := [] }

/-- Lines 313-331, for a plain space, with the computed `model_to_base`
taken as input: store the transform unconditionally, then — only when the
transform is new or differs from the stored one — bump the change counter
(unless the new transform is the identity of its own shape) and notify the
registered consumers.  `torch.allclose` is modelled as exact equality. -/
def commitTransform (st : LoopState) (space : String) (model_to_base : Mat)
    (procs : List String) : LoopState :=
  let old := st.transforms space
  let st1 := { st with transforms := setFun st.transforms space model_to_base }
  if old = none ∨ old ≠ some model_to_base then
    { st1 with
      change_count :=
        if model_to_base ≠ eyeMat model_to_base.length (tensorCols model_to_base) then
          st1.change_count + 1
        else st1.change_count
      notified := st1.notified ++ procs }
  else st1

/-- Lines 227-233, for a virtual head-group space, with the computed
`P_heads` taken as input: store the head permutation and bump the change
counter whenever it is new or differs from the stored one (no identity
check in this branch). -/
def commitHeadPermutation (st : LoopState) (space : String) (P_heads : Mat) :
    LoopState :=
  let old := st.head_permutations space
  let st1 := { st with head_permutations := setFun st.head_permutations space P_heads }
  if old = none ∨ old ≠ some P_heads then
    { st1 with change_count := st1.change_count + 1 }
  else st1

/-- The iteration loop of `main` (lines 179-332): `for iter_idx in
range(iters)`, resetting the change counter at the top of each iteration,
running the per-space pass (abstracted as `step`, which receives the
iteration index since the traversal order depends on it), and logging the
iteration's change count.  There is no break or early exit. -/
def runAlignment (iters : ℕ) (step : ℕ → LoopState → LoopState) (st0 : LoopState) :
    List ℕ × LoopState :=
  (List.range iters).foldl
    (fun acc k =>
      let st1 := step k { acc.2 with change_count := 0 }
      (acc.1 ++ [st1.change_count], st1))
    ([], st0)

/-- `torch.eye(n)` over the reals, as an unbounded index function (zero
outside the `n × n` block). -/
def eyeR (n : ℕ) : ℕ → ℕ → ℝ := fun i j => if i = j ∧ i < n then 1 else 0

/-- `torch.kron(A, B)` where `B` has shape `m × n`:
`(A ⊗ B)[i, j] = A[i / m, j / n] * B[i % m, j % n]`. -/
def kronTorch (A : ℕ → ℕ → ℝ) (m n : ℕ) (B : ℕ → ℕ → ℝ) : ℕ → ℕ → ℝ :=
  fun i j => A (i / m) (j / n) * B (i % m) (j % n)

/-- Lines 258-261: `expanded = torch.kron(torch.eye(head_dim), P_heads)`,
the full-resolution expansion the script applies to the input tensors. -/
def expandedHeadPerm (head_dim num_heads : ℕ) (P_heads : ℕ → ℕ → ℝ) : ℕ → ℕ → ℝ :=
  kronTorch (eyeR head_dim) num_heads num_heads P_heads

/-- `theta_to_matrix` (lines 57-71): the per-head `head_dim × head_dim`
rotation block built from the angle array; result indexed as
`head → row → column`.  The four index-scatter assignments are translated
literally (`idx = arange(head_dim // 2)`), and `theta_p = cat([theta,
theta])` means only `theta[:, 0 .. head_dim//2)` is ever read. -/
noncomputable def theta_to_matrix (head_dim : ℕ) (theta : ℕ → ℕ → ℝ) :
    ℕ → ℕ → ℕ → ℝ :=
  fun h i j =>
    if i < head_dim / 2 ∧ j = i then Real.cos (theta h i)
    else if i < head_dim / 2 ∧ j = head_dim / 2 + i then Real.sin (theta h i)
    else if head_dim / 2 ≤ i ∧ i < head_dim / 2 + head_dim / 2 ∧ j = i - head_dim / 2 then
      -Real.sin (theta h (i - head_dim / 2))
    else if head_dim / 2 ≤ i ∧ i < head_dim / 2 + head_dim / 2 ∧ j = i then
      Real.cos (theta h (i - head_dim / 2))
    else 0

/-- Matrix product of `n × n` index functions. -/
def mulMatR (n : ℕ) (A B : ℕ → ℕ → ℝ) : ℕ → ℕ → ℝ :=
  fun i j => ∑ k ∈ Finset.range n, A i k * B k j

/-- Transpose of an index function. -/
def transposeR (A : ℕ → ℕ → ℝ) : ℕ → ℕ → ℝ := fun i j => A j i

/-- `A · Aᵗ = I` on the leading `n × n` block. -/
def IsOrthoOn (n : ℕ) (A : ℕ → ℕ → ℝ) : Prop :=
  ∀ i < n, ∀ j < n, mulMatR n A (transposeR A) i j = if i = j then (1 : ℝ) else 0

open Classical in
/-- `torch.argmax` over the first `n` entries of a row: index of the first
occurrence of the maximal value. -/
noncomputable def argmaxFold (f : ℕ → ℝ) (n : ℕ) : ℕ :=
  (List.range n).foldl (fun best k => if f best < f k then k else best) 0

/-- The block-placement loop of lines 292-308: for each `head_idx`, write
the rotation block `R head_idx` into the row block of `head_idx` and the
column block of `argmax(P_heads[head_idx])`; all other entries stay zero. -/
noncomputable def composedHeadTransform (head_dim num_heads : ℕ)
    (P_heads : ℕ → ℕ → ℝ) (R : ℕ → ℕ → ℕ → ℝ) : ℕ → ℕ → ℝ :=
  fun i j =>
    if i < num_heads * head_dim ∧
        j / head_dim = argmaxFold (P_heads (i / head_dim)) num_heads then
      R (i / head_dim) (i % head_dim) (j % head_dim)
    else 0

/-- Block-diagonal matrix with `head_dim × head_dim` blocks `R 0, R 1, …`:
the full-resolution operator that applies each head's rotation to that
head's contiguous row block. -/
def blockDiagR (head_dim : ℕ) (R : ℕ → ℕ → ℕ → ℝ) : ℕ → ℕ → ℝ :=
  fun i j => if i / head_dim = j / head_dim then R (i / head_dim) (i % head_dim) (j % head_dim) else 0

/-- The 2-head swap permutation, as a head-level permutation matrix. -/
def swapPerm : ℕ → ℕ → ℝ :=
  fun i j => if (i = 0 ∧ j = 1) ∨ (i = 1 ∧ j = 0) then 1 else 0

/-- The all-zero angle array. -/
def zeroTheta : ℕ → ℕ → ℝ := fun _ _ => 0

/-! ## Claim theorems -/

/-- Claim C3 (counterexample): the claim says the change counter is bumped
only when the new transform differs from the stored one AND is not the
identity.  For a virtual head-group space the code bumps the counter even
when the newly computed head permutation is the identity matrix (no
identity check on lines 231-232). -/
theorem head_change_counts_identity :
    (commitHeadPermutation initState "head:g" (eyeMat 1 1)).change_count =
      initState.change_count + 1 ∧
    eyeMat 1 1 = eyeMat (eyeMat 1 1).length (tensorCols (eyeMat 1 1)) := by
  exact ⟨rfl, rfl⟩

/-- Claim C3 (amended): for a plain space the change counter is bumped iff
the new transform is new-or-different AND not the identity of its own
shape; for a virtual head-group space it is bumped iff the new head
permutation is new-or-different, with no identity check. -/
theorem change_count_conditions (st : LoopState) (space : String) (M : Mat)
    (procs : List String) :
    ((commitTransform st space M procs).change_count = st.change_count + 1 ↔
      (st.transforms space = none ∨ st.transforms space ≠ some M) ∧
        M ≠ eyeMat M.length (tensorCols M)) ∧
    ((commitHeadPermutation st space M).change_count = st.change_count + 1 ↔
      (st.head_permutations space = none ∨ st.head_permutations space ≠ some M)) := by
  constructor
  · by_cases h1 : st.transforms space = none ∨ st.transforms space ≠ some M
    · by_cases h2 : M ≠ eyeMat M.length (tensorCols M)
      · simp [commitTransform, h1, h2]
      · simp [commitTransform, h1, h2]
    · simp [commitTransform, h1]
  · by_cases h1 : st.head_permutations space = none ∨ st.head_permutations space ≠ some M
    · simp [commitHeadPermutation, h1]
    · simp [commitHeadPermutation, h1]

/-- Claim C7 (counterexample): recomputing the same transform for a space a
second time stores it again but does not notify the registered consumers
(the notification loop of lines 330-331 sits inside the changed branch), so
consumers are not notified each time a transform is computed. -/
theorem no_notify_when_unchanged :
    (commitTransform (commitTransform initState "s" [[2]] ["p"]) "s" [[2]] ["p"]).notified =
      (commitTransform initState "s" [[2]] ["p"]).notified ∧
    (commitTransform (commitTransform initState "s" [[2]] ["p"]) "s" [[2]]
        ["p"]).transforms "s" = some [[2]] ∧
    (["p"] : List String) ≠ [] := by
  refine ⟨rfl, rfl, by simp⟩

/-- Claim C7 (amended): the transform is always stored, but the registered
consumers are notified exactly when the newly computed transform is new or
differs from the stored one; an unchanged recomputation does not notify. -/
theorem notify_conditions (st : LoopState) (space : String) (M : Mat)
    (procs : List String) :
    (commitTransform st space M procs).transforms space = some M ∧
    (commitTransform st space M procs).notified =
      st.notified ++
        (if st.transforms space = none ∨ st.transforms space ≠ some M then procs
         else []) := by
  by_cases h : st.transforms space = none ∨ st.transforms space ≠ some M
  · simp [commitTransform, setFun, h]
  · simp [commitTransform, setFun, h]

/-- Claim C8: the alignment loop performs exactly the configured number of
iterations — the log has one change count per configured iteration, and the
run for `iters + 1` iterations always extends the run for `iters`
iterations by one more pass, regardless of the change counts produced (in
particular there is no early exit on a zero-change iteration). -/
theorem loop_runs_all_iterations (iters : ℕ) (step : ℕ → LoopState → LoopState)
    (st0 : LoopState) :
    (runAlignment iters step st0).1.length = iters ∧
    runAlignment (iters + 1) step st0 =
      ((runAlignment iters step st0).1 ++
          [(step iters
              { (runAlignment iters step st0).2 with change_count := 0 }).change_count],
        step iters { (runAlignment iters step st0).2 with change_count := 0 }) := by
  have key : ∀ n : ℕ, runAlignment (n + 1) step st0 =
      ((runAlignment n step st0).1 ++
          [(step n { (runAlignment n step st0).2 with change_count := 0 }).change_count],
        step n { (runAlignment n step st0).2 with change_count := 0 }) := by
    intro n
    simp [runAlignment, List.range_succ]
  refine ⟨?_, key iters⟩
  induction iters with
  | zero => rfl
  | succ n ih => rw [key n]; simp [ih]

/-- Claim C4: if the target tensors' leading dimensions disagree,
`align_tensors` fails with the fatal dimension-mismatch error, reporting
the expected dimension, the found shapes and the implicated weight names,
without computing any matrix; if they agree, that error is never raised. -/
theorem dim_mismatch_fatal (ins tgts : List Tensor) (names : List String)
    (hne : tgts ≠ []) :
    (¬ (∀ x ∈ tgts, tensorRows x = out_dim tgts) →
        align_tensors ins tgts names =
          Except.error (AlignError.dimMismatch (out_dim tgts)
            (tgts.map fun x => (tensorRows x, tensorCols x)) names)) ∧
    ((∀ x ∈ tgts, tensorRows x = out_dim tgts) →
        ∀ e sh nm, align_tensors ins tgts names ≠
          Except.error (AlignError.dimMismatch e sh nm)) := by
  constructor
  · intro hmis
    have hall : ¬ ((tgts.all fun x => tensorRows x == out_dim tgts) = true) := by
      rw [List.all_eq_true]
      intro hc
      exact hmis fun x hx => beq_iff_eq.mp (hc x hx)
    simp only [align_tensors, if_neg hall]
  · intro hok e sh nm
    have hall : (tgts.all fun x => tensorRows x == out_dim tgts) = true := by
      rw [List.all_eq_true]
      intro x hx
      exact beq_iff_eq.mpr (hok x hx)
    cases hbc : buildCost (out_dim tgts) (tgts.zip ins) with
    | none => simp [align_tensors, hall, hbc]
    | some cost => simp [align_tensors, hall, hbc]

/-- Claim C4 (witness): a concrete space whose two target tensors have
leading dimensions 1 and 2 hits the fatal branch with the reported
diagnostics, and a concrete consistent space never sees that error. -/
theorem dim_mismatch_fatal_witness :
    ([[[1]], [[1], [1]]] : List Tensor) ≠ [] ∧
    ((¬ (∀ x ∈ ([[[1]], [[1], [1]]] : List Tensor),
          tensorRows x = out_dim [[[1]], [[1], [1]]]) →
        align_tensors [] [[[1]], [[1], [1]]] ["w0", "w1"] =
          Except.error (AlignError.dimMismatch (out_dim [[[1]], [[1], [1]]])
            (([[[1]], [[1], [1]]] : List Tensor).map fun x => (tensorRows x, tensorCols x))
            ["w0", "w1"])) ∧
      ((∀ x ∈ ([[[1]], [[1], [1]]] : List Tensor),
          tensorRows x = out_dim [[[1]], [[1], [1]]]) →
        ∀ e sh nm, align_tensors [] [[[1]], [[1], [1]]] ["w0", "w1"] ≠
          Except.error (AlignError.dimMismatch e sh nm))) :=
  ⟨by simp, dim_mismatch_fatal [] [[[1]], [[1], [1]]] ["w0", "w1"] (by simp)⟩

/-- Claim C9 (counterexample): with consistent target dimensions (D = 2)
and a 3-row input tensor, the dimension-mismatch check passes but the cost
accumulation raises a shape error, so `align_tensors` does not proceed to
compute a matrix as the claim asserts. -/
theorem input_dims_shape_error :
    align_tensors [[[1], [1], [1]]] [[[1], [1]]] [] =
      Except.error AlignError.shapeError := by
  rfl

/-- Claim C9 (amended): the fatal dimension-mismatch check validates only
the target tensors' leading dimensions — no input-tensor list can trigger
it — and a matrix is computed whenever each (target, input) pair is
shape-compatible with the cost accumulation; an incompatible input tensor
instead raises a different (shape) error. -/
theorem only_target_dims_checked (ins tgts : List Tensor) (names : List String)
    (hdim : ∀ x ∈ tgts, tensorRows x = out_dim tgts) :
    (∀ e sh nm, align_tensors ins tgts names ≠
        Except.error (AlignError.dimMismatch e sh nm)) ∧
    ((∀ p ∈ tgts.zip ins, costShapeOk (out_dim tgts) p = true) →
        ∃ M, align_tensors ins tgts names = Except.ok M) := by
  have hall : (tgts.all fun x => tensorRows x == out_dim tgts) = true := by
    rw [List.all_eq_true]
    intro x hx
    exact beq_iff_eq.mpr (hdim x hx)
  constructor
  · intro e sh nm
    cases hbc : buildCost (out_dim tgts) (tgts.zip ins) with
    | none => simp [align_tensors, hall, hbc]
    | some cost => simp [align_tensors, hall, hbc]
  · intro hpairs
    have hp : ((tgts.zip ins).all (costShapeOk (out_dim tgts))) = true := by
      rw [List.all_eq_true]
      exact hpairs
    refine ⟨permMatrix (out_dim tgts)
      (lsaMaximize (costMatrix (out_dim tgts) (tgts.zip ins)) (out_dim tgts)), ?_⟩
    simp [align_tensors, hall, buildCost, hp]

/-- Claim C9 (witness): concrete instantiation with a mismatched 3-row
input tensor (no dimension-mismatch error) and, for the positive half, a
well-shaped input list yielding a matrix. -/
theorem only_target_dims_checked_witness :
    (∀ x ∈ ([[[1], [1]]] : List Tensor), tensorRows x = out_dim [[[1], [1]]]) ∧
    ((∀ e sh nm, align_tensors [[[1], [1], [1]]] [[[1], [1]]] [] ≠
        Except.error (AlignError.dimMismatch e sh nm)) ∧
      ((∀ p ∈ ([[[1], [1]]] : List Tensor).zip [[[1], [1], [1]]],
          costShapeOk (out_dim [[[1], [1]]]) p = true) →
        ∃ M, align_tensors [[[1], [1], [1]]] [[[1], [1]]] [] = Except.ok M)) :=
  ⟨by decide, only_target_dims_checked [[[1], [1], [1]]] [[[1], [1]]] [] (by decide)⟩

/-! ## Helper lemmas for the rotation blocks -/

/-- First-half diagonal entry of a rotation block. -/
lemma tm_diag_lo (d : ℕ) (theta : ℕ → ℕ → ℝ) (h i : ℕ) (hi : i < d / 2) :
    theta_to_matrix d theta h i i = Real.cos (theta h i) := by
  unfold theta_to_matrix
  rw [if_pos ⟨hi, rfl⟩]

/-- First-half off-diagonal entry of a rotation block. -/
lemma tm_sin_lo (d : ℕ) (theta : ℕ → ℕ → ℝ) (h i : ℕ) (hi : i < d / 2) :
    theta_to_matrix d theta h i (d / 2 + i) = Real.sin (theta h i) := by
  unfold theta_to_matrix
  rw [if_neg (by omega), if_pos ⟨hi, rfl⟩]

/-- Second-half off-diagonal entry of a rotation block. -/
lemma tm_sin_hi (d : ℕ) (theta : ℕ → ℕ → ℝ) (h i : ℕ) (h1 : d / 2 ≤ i)
    (h2 : i < d / 2 + d / 2) :
    theta_to_matrix d theta h i (i - d / 2) = -Real.sin (theta h (i - d / 2)) := by
  unfold theta_to_matrix
  rw [if_neg (by omega), if_neg (by omega), if_pos ⟨h1, h2, rfl⟩]

/-- Second-half diagonal entry of a rotation block. -/
lemma tm_diag_hi (d : ℕ) (theta : ℕ → ℕ → ℝ) (h i : ℕ) (h1 : d / 2 ≤ i)
    (h2 : i < d / 2 + d / 2) :
    theta_to_matrix d theta h i i = Real.cos (theta h (i - d / 2)) := by
  unfold theta_to_matrix
  rw [if_neg (by omega), if_neg (by omega), if_neg (by omega), if_pos ⟨h1, h2, rfl⟩]

/-- Entries outside the four scatter targets are zero. -/
lemma tm_zero (d : ℕ) (theta : ℕ → ℕ → ℝ) (h i j : ℕ)
    (c1 : ¬ (i < d / 2 ∧ j = i))
    (c2 : ¬ (i < d / 2 ∧ j = d / 2 + i))
    (c3 : ¬ (d / 2 ≤ i ∧ i < d / 2 + d / 2 ∧ j = i - d / 2))
    (c4 : ¬ (d / 2 ≤ i ∧ i < d / 2 + d / 2 ∧ j = i)) :
    theta_to_matrix d theta h i j = 0 := by
  unfold theta_to_matrix
  rw [if_neg c1, if_neg c2, if_neg c3, if_neg c4]

/-- A range sum of a function supported on two indices. -/
lemma sum_pair_support (n a b : ℕ) (f : ℕ → ℝ) (hab : a ≠ b) (ha : a < n)
    (hb : b < n) (h0 : ∀ k, k < n → k ≠ a → k ≠ b → f k = 0) :
    ∑ k ∈ Finset.range n, f k = f a + f b := by
  have hsub : ({a, b} : Finset ℕ) ⊆ Finset.range n := by
    intro x hx
    rcases Finset.mem_insert.mp hx with rfl | hx
    · exact Finset.mem_range.mpr ha
    · rw [Finset.mem_singleton] at hx
      subst hx
      exact Finset.mem_range.mpr hb
  have hzero : ∀ x ∈ Finset.range n, x ∉ ({a, b} : Finset ℕ) → f x = 0 := by
    intro x hx hnx
    simp only [Finset.mem_insert, Finset.mem_singleton, not_or] at hnx
    exact h0 x (Finset.mem_range.mp hx) hnx.1 hnx.2
  rw [← Finset.sum_subset hsub hzero]
  exact Finset.sum_pair hab

/-- Claim C10: for odd `head_dim`, every per-head block of
`theta_to_matrix` has its last row and last column entirely zero, hence is
singular and not orthogonal. -/
theorem theta_matrix_odd_singular (d : ℕ) (hd : d % 2 = 1) (theta : ℕ → ℕ → ℝ)
    (h : ℕ) :
    (∀ k, theta_to_matrix d theta h (d - 1) k = 0) ∧
    (∀ k, theta_to_matrix d theta h k (d - 1) = 0) ∧
    ¬ IsOrthoOn d (theta_to_matrix d theta h) := by
  have hrow : ∀ k, theta_to_matrix d theta h (d - 1) k = 0 := by
    intro k
    apply tm_zero <;> omega
  have hcol : ∀ k, theta_to_matrix d theta h k (d - 1) = 0 := by
    intro k
    apply tm_zero <;> omega
  refine ⟨hrow, hcol, ?_⟩
  intro hortho
  have hd1 : d - 1 < d := by omega
  have hone := hortho (d - 1) hd1 (d - 1) hd1
  rw [if_pos rfl] at hone
  have hzero : mulMatR d (theta_to_matrix d theta h)
      (transposeR (theta_to_matrix d theta h)) (d - 1) (d - 1) = 0 := by
    unfold mulMatR transposeR
    apply Finset.sum_eq_zero
    intro k _
    rw [hrow k, zero_mul]
  rw [hzero] at hone
  exact zero_ne_one hone

/-- Claim C10 (witness): `head_dim = 1` with the zero angle array. -/
theorem theta_matrix_odd_singular_witness :
    1 % 2 = 1 ∧
    ((∀ k, theta_to_matrix 1 zeroTheta 0 (1 - 1) k = 0) ∧
      (∀ k, theta_to_matrix 1 zeroTheta 0 k (1 - 1) = 0) ∧
      ¬ IsOrthoOn 1 (theta_to_matrix 1 zeroTheta 0)) :=
  ⟨rfl, theta_matrix_odd_singular 1 rfl zeroTheta 0⟩

/-- Claim C5 (counterexample): for `head_dim = 1` (an odd value allowed by
the claim's quantification) the per-head block of `theta_to_matrix` is the
1 × 1 zero matrix, which is not orthogonal. -/
theorem theta_matrix_not_orthogonal_dim_one :
    ¬ IsOrthoOn 1 (theta_to_matrix 1 zeroTheta 0) := by
  intro hortho
  have hone := hortho 0 one_pos 0 one_pos
  rw [if_pos rfl] at hone
  have hzero : mulMatR 1 (theta_to_matrix 1 zeroTheta 0)
      (transposeR (theta_to_matrix 1 zeroTheta 0)) 0 0 = 0 := by
    unfold mulMatR transposeR
    rw [Finset.sum_range_one]
    have h00 : theta_to_matrix 1 zeroTheta 0 0 0 = 0 := by
      apply tm_zero <;> omega
    rw [h00, zero_mul]
  rw [hzero] at hone
  exact zero_ne_one hone

/-- Claim C5 (amended): for every even `head_dim` and every angle array,
each per-head block of `theta_to_matrix` is orthogonal: `M · Mᵗ = I`
exactly, independently for every head. -/
theorem theta_matrix_orthogonal_even (d : ℕ) (hd : d % 2 = 0)
    (theta : ℕ → ℕ → ℝ) (h : ℕ) : IsOrthoOn d (theta_to_matrix d theta h) := by
  intro i hi j hj
  unfold mulMatR transposeR
  rcases lt_or_ge i (d / 2) with hi2 | hi2
  · have hsum : ∑ k ∈ Finset.range d,
        theta_to_matrix d theta h i k * theta_to_matrix d theta h j k
        = theta_to_matrix d theta h i i * theta_to_matrix d theta h j i
          + theta_to_matrix d theta h i (d / 2 + i) *
            theta_to_matrix d theta h j (d / 2 + i) := by
      apply sum_pair_support d i (d / 2 + i) _ (by omega) (by omega) (by omega)
      intro k hk hki hkmi
      rw [tm_zero d theta h i k (by omega) (by omega) (by omega) (by omega), zero_mul]
    rw [hsum]
    rcases lt_or_ge j (d / 2) with hj2 | hj2
    · by_cases hij : i = j
      · subst hij
        rw [if_pos rfl, tm_diag_lo d theta h i hi2, tm_sin_lo d theta h i hi2]
        have hpyth := Real.sin_sq_add_cos_sq (theta h i)
        linear_combination hpyth
      · rw [if_neg hij,
          tm_zero d theta h j i (by omega) (by omega) (by omega) (by omega),
          tm_zero d theta h j (d / 2 + i) (by omega) (by omega) (by omega) (by omega)]
        ring
    · by_cases hji : j = d / 2 + i
      · have hij : i ≠ j := by omega
        rw [if_neg hij, tm_diag_lo d theta h i hi2, tm_sin_lo d theta h i hi2]
        have hcolj : theta_to_matrix d theta h j i = -Real.sin (theta h i) := by
          subst hji
          have := tm_sin_hi d theta h (d / 2 + i) (by omega) (by omega)
          rwa [Nat.add_sub_cancel_left] at this
        have hdiagj : theta_to_matrix d theta h j (d / 2 + i)
            = Real.cos (theta h i) := by
          subst hji
          have := tm_diag_hi d theta h (d / 2 + i) (by omega) (by omega)
          rwa [Nat.add_sub_cancel_left] at this
        rw [hcolj, hdiagj]
        ring
      · have hij : i ≠ j := by omega
        rw [if_neg hij,
          tm_zero d theta h j i (by omega) (by omega) (by omega) (by omega),
          tm_zero d theta h j (d / 2 + i) (by omega) (by omega) (by omega) (by omega)]
        ring
  · have hsum : ∑ k ∈ Finset.range d,
        theta_to_matrix d theta h i k * theta_to_matrix d theta h j k
        = theta_to_matrix d theta h i (i - d / 2) *
            theta_to_matrix d theta h j (i - d / 2)
          + theta_to_matrix d theta h i i * theta_to_matrix d theta h j i := by
      apply sum_pair_support d (i - d / 2) i _ (by omega) (by omega) (by omega)
      intro k hk hka hkb
      rw [tm_zero d theta h i k (by omega) (by omega) (by omega) (by omega), zero_mul]
    rw [hsum]
    rcases lt_or_ge j (d / 2) with hj2 | hj2
    · by_cases hji : j = i - d / 2
      · have hij : i ≠ j := by omega
        have hieq : i = d / 2 + j := by omega
        rw [if_neg hij, tm_sin_hi d theta h i hi2 (by omega),
          tm_diag_hi d theta h i hi2 (by omega)]
        have hcolj : theta_to_matrix d theta h j (i - d / 2)
            = Real.cos (theta h j) := by
          rw [show i - d / 2 = j by omega]
          exact tm_diag_lo d theta h j hj2
        have hsinj : theta_to_matrix d theta h j i = Real.sin (theta h j) := by
          rw [hieq]
          exact tm_sin_lo d theta h j hj2
        rw [hcolj, hsinj, show i - d / 2 = j by omega]
        ring
      · have hij : i ≠ j := by omega
        rw [if_neg hij,
          tm_zero d theta h j (i - d / 2) (by omega) (by omega) (by omega) (by omega),
          tm_zero d theta h j i (by omega) (by omega) (by omega) (by omega)]
        ring
    · by_cases hij : i = j
      · subst hij
        rw [if_pos rfl, tm_sin_hi d theta h i hi2 (by omega),
          tm_diag_hi d theta h i hi2 (by omega)]
        have hpyth := Real.sin_sq_add_cos_sq (theta h (i - d / 2))
        linear_combination hpyth
      · rw [if_neg hij,
          tm_zero d theta h j (i - d / 2) (by omega) (by omega) (by omega) (by omega),
          tm_zero d theta h j i (by omega) (by omega) (by omega) (by omega)]
        ring

/-- Claim C5 (witness): `head_dim = 2` with the zero angle array, head 0. -/
theorem theta_matrix_orthogonal_even_witness :
    2 % 2 = 0 ∧ IsOrthoOn 2 (theta_to_matrix 2 zeroTheta 0) :=
  ⟨rfl, theta_matrix_orthogonal_even 2 rfl zeroTheta 0⟩

/-- Claim C1: at `head_dim = 2`, `num_heads = 2`, head permutation = the
2-head swap, zero angles (so each rotation block is the 2 × 2 identity),
the composition "apply the script's Kronecker expansion
`torch.kron(eye(head_dim), P_heads)` then the block rotation" disagrees
with the direct block placement of lines 292-308 at entry `(0, 1)`: the
expansion permutes interleaved rows instead of contiguous head blocks, so
the claimed equality fails on the code. -/
theorem kron_expansion_mismatch :
    mulMatR 4 (blockDiagR 2 (theta_to_matrix 2 zeroTheta))
        (expandedHeadPerm 2 2 swapPerm) 0 1 = 1 ∧
    composedHeadTransform 2 2 swapPerm (theta_to_matrix 2 zeroTheta) 0 1 = 0 := by
  have harg : argmaxFold (swapPerm 0) 2 = 1 := by
    have h1 : swapPerm 0 0 = 0 := by norm_num [swapPerm]
    have h2 : swapPerm 0 1 = 1 := by norm_num [swapPerm]
    unfold argmaxFold
    rw [show List.range 2 = [0, 1] from rfl]
    simp only [List.foldl_cons, List.foldl_nil, ite_self]
    rw [h1, h2, if_pos (by norm_num : (0 : ℝ) < 1)]
  constructor
  · norm_num [mulMatR, Finset.sum_range_succ, blockDiagR, expandedHeadPerm,
      kronTorch, eyeR, swapPerm, theta_to_matrix, zeroTheta]
  · simp only [composedHeadTransform, harg]
    norm_num

/-! ## Helper lemmas for the assignment solver -/

/-- An in-bounds `getD` is a member of the list. -/
lemma getD_mem_of_lt : ∀ (l : List ℕ) (i : ℕ), i < l.length →
    ∀ d : ℕ, l.getD i d ∈ l
  | a :: t, 0, _, _ => List.mem_cons_self a t
  | a :: t, i + 1, h, d =>
      List.mem_cons_of_mem a (getD_mem_of_lt t i (by simpa using h) d)

/-- `getD` on `List.range`. -/
lemma getD_range (n i : ℕ) (h : i < n) (d : ℕ) : (List.range n).getD i d = i := by
  simp [List.getD_eq_getElem?_getD, List.getElem?_range, h]

/-- `getD` on a mapped `List.range`. -/
lemma getD_map_range {α : Type} (n i : ℕ) (h : i < n) (f : ℕ → α) (d : α) :
    ((List.range n).map f).getD i d = f i := by
  simp [List.getD_eq_getElem?_getD, List.getElem?_map, List.getElem?_range, h]

/-- List sum over a mapped range as a `Finset` sum. -/
lemma sum_map_range (n : ℕ) (f : ℕ → ℚ) :
    ((List.range n).map f).sum = ∑ i ∈ Finset.range n, f i := by
  induction n with
  | zero => rfl
  | succ n ih =>
      rw [List.range_succ, List.map_append, List.sum_append, Finset.sum_range_succ, ih]
      simp

/-- A range sum of `g` at list positions equals the mapped list sum. -/
lemma sum_getD_eq_map_sum (l : List ℕ) (g : ℕ → ℚ) :
    ∑ i ∈ Finset.range l.length, g (l.getD i 0) = (l.map g).sum := by
  induction l with
  | nil => rfl
  | cons a t ih =>
      rw [List.length_cons, Finset.sum_range_succ']
      simp only [List.getD_cons_succ, List.getD_cons_zero, List.map_cons, List.sum_cons]
      rw [ih]
      ring

/-- Summing a membership indicator over a list counts occurrences. -/
lemma sum_map_indicator (l : List ℕ) (j : ℕ) :
    (l.map fun a => if a = j then (1 : ℚ) else 0).sum = l.count j := by
  induction l with
  | nil => rfl
  | cons a t ih =>
      rw [List.map_cons, List.sum_cons, ih, List.count_cons]
      by_cases h : a = j
      · simp [h, add_comm]
      · simp [h, Ne.symm h]

/-- Occurrence count of `j` in `List.range n`. -/
lemma count_range (j n : ℕ) : (List.range n).count j = if j < n then 1 else 0 := by
  induction n with
  | zero => rfl
  | succ n ih =>
      rw [List.range_succ, List.count_append, ih]
      by_cases h : j = n
      · subst h
        simp
      · by_cases h2 : j < n
        · rw [if_pos h2, if_pos (by omega)]
          simp [List.count_singleton', h]
        · rw [if_neg h2, if_neg (by omega)]
          simp [List.count_singleton', h]

/-- The best-candidate fold returns its initial value or a candidate. -/
lemma foldl_best_mem (score : List ℕ → ℚ) :
    ∀ (cands : List (List ℕ)) (init : List ℕ),
      cands.foldl (fun best c => if score best < score c then c else best) init = init ∨
      cands.foldl (fun best c => if score best < score c then c else best) init ∈ cands := by
  intro cands
  induction cands with
  | nil => exact fun init => Or.inl rfl
  | cons c cs ih =>
      intro init
      rw [List.foldl_cons]
      rcases ih (if score init < score c then c else init) with h | h
      · rw [h]
        by_cases hlt : score init < score c
        · rw [if_pos hlt]
          exact Or.inr (List.mem_cons_self c cs)
        · rw [if_neg hlt]
          exact Or.inl rfl
      · exact Or.inr (List.mem_cons_of_mem c h)

/-- If no candidate strictly beats the initial value, the fold keeps it. -/
lemma foldl_best_eq_init (score : List ℕ → ℚ) :
    ∀ (cands : List (List ℕ)) (init : List ℕ),
      (∀ c ∈ cands, score c ≤ score init) →
      cands.foldl (fun best c => if score best < score c then c else best) init = init := by
  intro cands
  induction cands with
  | nil => exact fun _ _ => rfl
  | cons c cs ih =>
      intro init hmax
      rw [List.foldl_cons,
        if_neg (not_lt.mpr (hmax c (List.mem_cons_self c cs)))]
      exact ih init fun q hq => hmax q (List.mem_cons_of_mem c hq)

/-- The modelled assignment is a permutation of `0, …, D-1`. -/
lemma lsa_perm (cost : Tensor) (D : ℕ) :
    List.Perm (lsaMaximize cost D) (List.range D) := by
  rcases foldl_best_mem (permScore cost) (List.range D).permutations (List.range D) with
    h | h
  · rw [lsaMaximize, h]
  · exact List.mem_permutations.mp (by rw [lsaMaximize]; exact h)

/-- The modelled assignment has length `D`. -/
lemma lsa_length (cost : Tensor) (D : ℕ) : (lsaMaximize cost D).length = D := by
  rw [(lsa_perm cost D).length_eq, List.length_range]

/-- In-range positions of the modelled assignment hold values `< D`. -/
lemma lsa_getD_lt (cost : Tensor) (D i : ℕ) (hi : i < D) :
    (lsaMaximize cost D).getD i 0 < D := by
  have hmem : (lsaMaximize cost D).getD i 0 ∈ lsaMaximize cost D :=
    getD_mem_of_lt _ i (by rw [lsa_length]; exact hi) 0
  exact List.mem_range.mp ((lsa_perm cost D).mem_iff.mp hmem)

/-- Each value `j < D` occurs exactly once in the modelled assignment. -/
lemma lsa_count (cost : Tensor) (D j : ℕ) (hj : j < D) :
    (lsaMaximize cost D).count j = 1 := by
  rw [(lsa_perm cost D).count_eq, count_range, if_pos hj]

/-- Entry extraction from the accumulated cost matrix. -/
lemma costMatrix_entry (D : ℕ) (pairs : List (Tensor × Tensor)) (i j : ℕ)
    (hi : i < D) (hj : j < D) :
    ((costMatrix D pairs).getD i []).getD j 0 = costEntry pairs i j := by
  unfold costMatrix
  rw [getD_map_range D i hi _ [], getD_map_range D j hj _ 0]

/-- Summing a position indicator over list positions counts occurrences. -/
lemma sum_indicator_eq_count (l : List ℕ) (j : ℕ) :
    ∑ i ∈ Finset.range l.length, (if l.getD i 0 = j then (1 : ℚ) else 0) = l.count j := by
  induction l with
  | nil => rfl
  | cons a t ih =>
      rw [List.length_cons, Finset.sum_range_succ']
      simp only [List.getD_cons_succ, List.getD_cons_zero]
      rw [ih, List.count_cons]
      by_cases h : a = j
      · simp [h, add_comm]
      · simp [h, Ne.symm h]

/-- The materialized matrix of any assignment that is a permutation of
`0, …, D-1` is a true `D × D` permutation matrix. -/
lemma permMatrix_is_permutation (D : ℕ) (ci : List ℕ)
    (hperm : List.Perm ci (List.range D)) :
    (permMatrix D ci).length = D ∧
    (∀ row ∈ permMatrix D ci, row.length = D) ∧
    (∀ row ∈ permMatrix D ci, ∀ x ∈ row, x = 0 ∨ x = 1) ∧
    (∀ row ∈ permMatrix D ci, row.sum = 1) ∧
    ∀ j < D, ((permMatrix D ci).map fun row => row.getD j 0).sum = 1 := by
  have hlen : ci.length = D := by rw [hperm.length_eq, List.length_range]
  have hget : ∀ i, i < D → ci.getD i 0 < D := by
    intro i hi
    exact List.mem_range.mp (hperm.mem_iff.mp
      (getD_mem_of_lt ci i (by rw [hlen]; exact hi) 0))
  have hcount : ∀ j, j < D → ci.count j = 1 := by
    intro j hj
    rw [hperm.count_eq, count_range, if_pos hj]
  refine ⟨by simp [permMatrix], ?_, ?_, ?_, ?_⟩
  · intro row hrow
    simp only [permMatrix] at hrow
    rcases List.mem_map.mp hrow with ⟨i, _, rfl⟩
    simp
  · intro row hrow x hx
    simp only [permMatrix] at hrow
    rcases List.mem_map.mp hrow with ⟨i, _, rfl⟩
    rcases List.mem_map.mp hx with ⟨j, _, rfl⟩
    by_cases h : ci.getD i 0 = j
    · right
      rw [if_pos h]
    · left
      rw [if_neg h]
  · intro row hrow
    simp only [permMatrix] at hrow
    rcases List.mem_map.mp hrow with ⟨i, hi, rfl⟩
    have hi2 : i < D := List.mem_range.mp hi
    rw [sum_map_range, Finset.sum_ite_eq (Finset.range D) (ci.getD i 0) fun _ => (1 : ℚ),
      if_pos (Finset.mem_range.mpr (hget i hi2))]
  · intro j hj
    rw [permMatrix, List.map_map]
    have hmaps : (List.range D).map
        ((fun row => row.getD j 0) ∘ fun i =>
          (List.range D).map fun k => if ci.getD i 0 = k then (1 : ℚ) else 0)
        = (List.range D).map fun i => if ci.getD i 0 = j then (1 : ℚ) else 0 := by
      apply List.map_congr_left
      intro i _
      exact getD_map_range D j hj _ 0
    rw [hmaps, sum_map_range]
    have hrange : ∑ i ∈ Finset.range D, (if ci.getD i 0 = j then (1 : ℚ) else 0)
        = ∑ i ∈ Finset.range ci.length, (if ci.getD i 0 = j then (1 : ℚ) else 0) := by
      rw [hlen]
    rw [hrange, sum_indicator_eq_count, hcount j hj, Nat.cast_one]

/-- Under the target-dimension check and per-pair shape compatibility, the
exact branch returns the materialized assignment matrix. -/
lemma align_ok_form (ins tgts : List Tensor) (names : List String)
    (hdim : ∀ x ∈ tgts, tensorRows x = out_dim tgts)
    (hpairs : ∀ p ∈ tgts.zip ins, costShapeOk (out_dim tgts) p = true) :
    align_tensors ins tgts names =
      Except.ok (permMatrix (out_dim tgts)
        (lsaMaximize (costMatrix (out_dim tgts) (tgts.zip ins)) (out_dim tgts))) := by
  have hall : (tgts.all fun x => tensorRows x == out_dim tgts) = true := by
    rw [List.all_eq_true]
    intro x hx
    exact beq_iff_eq.mpr (hdim x hx)
  have hp : ((tgts.zip ins).all (costShapeOk (out_dim tgts))) = true := by
    rw [List.all_eq_true]
    exact hpairs
  simp [align_tensors, hall, buildCost, hp]

/-- Claim C2: for equal-length, well-shaped input and target lists whose
target tensors share the leading dimension `D`, exact-mode `align_tensors`
returns a `D × D` matrix with every entry 0 or 1 and every row and column
summing to exactly 1 — a true permutation matrix. -/
theorem align_exact_returns_permutation (ins tgts : List Tensor)
    (names : List String) (hne : tgts ≠ []) (hlen : ins.length = tgts.length)
    (hdim : ∀ x ∈ tgts, tensorRows x = out_dim tgts)
    (hpairs : ∀ p ∈ tgts.zip ins, costShapeOk (out_dim tgts) p = true) :
    ∃ M, align_tensors ins tgts names = Except.ok M ∧
      M.length = out_dim tgts ∧
      (∀ row ∈ M, row.length = out_dim tgts) ∧
      (∀ row ∈ M, ∀ x ∈ row, x = 0 ∨ x = 1) ∧
      (∀ row ∈ M, row.sum = 1) ∧
      ∀ j < out_dim tgts, (M.map fun row => row.getD j 0).sum = 1 := by
  refine ⟨permMatrix (out_dim tgts)
      (lsaMaximize (costMatrix (out_dim tgts) (tgts.zip ins)) (out_dim tgts)),
    align_ok_form ins tgts names hdim hpairs, ?_⟩
  exact permMatrix_is_permutation (out_dim tgts) _
    (lsa_perm (costMatrix (out_dim tgts) (tgts.zip ins)) (out_dim tgts))

/-- Claim C2 (witness): a concrete 2-row space; the hypotheses hold and the
returned matrix is a 2 × 2 permutation matrix. -/
theorem align_exact_returns_permutation_witness :
    ([[[1], [0]]] : List Tensor) ≠ [] ∧
    ([[[0], [1]]] : List Tensor).length = ([[[1], [0]]] : List Tensor).length ∧
    (∀ x ∈ ([[[1], [0]]] : List Tensor), tensorRows x = out_dim [[[1], [0]]]) ∧
    (∀ p ∈ ([[[1], [0]]] : List Tensor).zip [[[0], [1]]],
      costShapeOk (out_dim [[[1], [0]]]) p = true) ∧
    (∃ M, align_tensors [[[0], [1]]] [[[1], [0]]] [] = Except.ok M ∧
      M.length = out_dim [[[1], [0]]] ∧
      (∀ row ∈ M, row.length = out_dim [[[1], [0]]]) ∧
      (∀ row ∈ M, ∀ x ∈ row, x = 0 ∨ x = 1) ∧
      (∀ row ∈ M, row.sum = 1) ∧
      ∀ j < out_dim [[[1], [0]]], (M.map fun row => row.getD j 0).sum = 1) :=
  ⟨by decide, by decide, by decide, by decide,
    align_exact_returns_permutation [[[0], [1]]] [[[1], [0]]] [] (by decide)
      (by decide) (by decide) (by decide)⟩

/-- A self inner product is non-negative. -/
lemma dot_self_nonneg : ∀ u : List ℚ, 0 ≤ dotQ u u := by
  intro u
  induction u with
  | nil => simp [dotQ]
  | cons a t ih =>
      simp only [dotQ, List.zipWith_cons_cons, List.sum_cons] at ih ⊢
      exact add_nonneg (mul_self_nonneg a) ih

/-- Arithmetic-mean bound for inner products (rows may differ in length:
`zipWith` truncates, and the self terms only add non-negative squares). -/
lemma two_mul_dot_le : ∀ u v : List ℚ, 2 * dotQ u v ≤ dotQ u u + dotQ v v := by
  intro u
  induction u with
  | nil =>
      intro v
      have hv := dot_self_nonneg v
      simp only [dotQ, List.zipWith_nil_left, List.sum_nil] at hv ⊢
      linarith
  | cons a t ih =>
      intro v
      cases v with
      | nil =>
          have hu := dot_self_nonneg (a :: t)
          simp only [dotQ, List.zipWith_nil_right, List.sum_nil] at hu ⊢
          linarith
      | cons b w =>
          have h1 := ih w
          have h2 : 2 * (a * b) ≤ a * a + b * b := by nlinarith [sq_nonneg (a - b)]
          simp only [dotQ, List.zipWith_cons_cons, List.sum_cons] at h1 ⊢
          linarith

/-- Every pair obtained by zipping a list with itself is diagonal. -/
lemma zip_self_eq : ∀ (l : List Tensor) (p : Tensor × Tensor), p ∈ l.zip l → p.1 = p.2 := by
  intro l
  induction l with
  | nil =>
      intro p hp
      simp at hp
  | cons a t ih =>
      intro p hp
      rw [List.zip_cons_cons] at hp
      rcases List.mem_cons.mp hp with rfl | hp
      · rfl
      · exact ih p hp

/-- For diagonal pairs the accumulated cost is a Gram matrix, so it obeys
the arithmetic-mean bound entrywise. -/
lemma costEntry_sym_le : ∀ (pairs : List (Tensor × Tensor)),
    (∀ p ∈ pairs, p.1 = p.2) → ∀ i j : ℕ,
    2 * costEntry pairs i j ≤ costEntry pairs i i + costEntry pairs j j := by
  intro pairs
  induction pairs with
  | nil =>
      intro _ i j
      simp [costEntry]
  | cons p ps ih =>
      intro hps i j
      have hp : p.1 = p.2 := hps p (List.mem_cons_self p ps)
      have hrec := ih (fun q hq => hps q (List.mem_cons_of_mem p hq)) i j
      simp only [costEntry, List.map_cons, List.sum_cons] at hrec ⊢
      have hhead := two_mul_dot_le (bRow p.1 i) (bRow p.1 j)
      rw [← hp]
      linarith

/-- When inputs equal targets, no assignment outscores the identity. -/
lemma permScore_le_identity (D : ℕ) (pairs : List (Tensor × Tensor))
    (hps : ∀ p ∈ pairs, p.1 = p.2) (s : List ℕ)
    (hperm : List.Perm s (List.range D)) :
    permScore (costMatrix D pairs) s ≤ permScore (costMatrix D pairs) (List.range D) := by
  have hlen : s.length = D := by rw [hperm.length_eq, List.length_range]
  have hget : ∀ i, i < D → s.getD i 0 < D := by
    intro i hi
    exact List.mem_range.mp (hperm.mem_iff.mp
      (getD_mem_of_lt s i (by rw [hlen]; exact hi) 0))
  have hid : permScore (costMatrix D pairs) (List.range D)
      = ∑ i ∈ Finset.range D, costEntry pairs i i := by
    unfold permScore
    rw [List.length_range]
    apply Finset.sum_congr rfl
    intro i hi
    have hi2 : i < D := Finset.mem_range.mp hi
    rw [getD_range D i hi2 0, costMatrix_entry D pairs i i hi2 hi2]
  have hs : permScore (costMatrix D pairs) s
      = ∑ i ∈ Finset.range D, costEntry pairs i (s.getD i 0) := by
    unfold permScore
    rw [hlen]
    apply Finset.sum_congr rfl
    intro i hi
    have hi2 : i < D := Finset.mem_range.mp hi
    rw [costMatrix_entry D pairs i (s.getD i 0) hi2 (hget i hi2)]
  rw [hid, hs]
  have hpt : ∀ i ∈ Finset.range D,
      2 * costEntry pairs i (s.getD i 0)
        ≤ costEntry pairs i i + costEntry pairs (s.getD i 0) (s.getD i 0) :=
    fun i _ => costEntry_sym_le pairs hps i (s.getD i 0)
  have hsum := Finset.sum_le_sum hpt
  rw [← Finset.mul_sum, Finset.sum_add_distrib] at hsum
  have hre : ∑ i ∈ Finset.range D, costEntry pairs (s.getD i 0) (s.getD i 0)
      = ∑ i ∈ Finset.range D, costEntry pairs i i := by
    have h0 : ∑ i ∈ Finset.range D, costEntry pairs (s.getD i 0) (s.getD i 0)
        = ∑ i ∈ Finset.range s.length, costEntry pairs (s.getD i 0) (s.getD i 0) := by
      rw [hlen]
    rw [h0]
    exact (sum_getD_eq_map_sum s fun a => costEntry pairs a a).trans
      (((hperm.map fun a => costEntry pairs a a).sum_eq).trans
        (sum_map_range D fun a => costEntry pairs a a))
  rw [hre] at hsum
  linarith

/-- When inputs equal targets, the modelled assignment solver returns the
identity assignment (it is a maximizer, and the deterministic tie-break
keeps the first candidate). -/
lemma lsa_identity (D : ℕ) (pairs : List (Tensor × Tensor))
    (hps : ∀ p ∈ pairs, p.1 = p.2) :
    lsaMaximize (costMatrix D pairs) D = List.range D := by
  unfold lsaMaximize
  apply foldl_best_eq_init
  intro c hc
  exact permScore_le_identity D pairs hps c (List.mem_permutations.mp hc)

/-- Materializing the identity assignment yields the identity matrix. -/
lemma permMatrix_range (D : ℕ) : permMatrix D (List.range D) = eyeMat D D := by
  unfold permMatrix eyeMat
  apply List.map_congr_left
  intro i hi
  have hi2 : i < D := List.mem_range.mp hi
  apply List.map_congr_left
  intro j _
  rw [getD_range D i hi2 0]

/-- The identity matrix coincides with `torch.eye` of its own shape. -/
lemma eyeMat_self_shape (D : ℕ) :
    eyeMat D D = eyeMat (eyeMat D D).length (tensorCols (eyeMat D D)) := by
  have hlen : (eyeMat D D).length = D := by simp [eyeMat]
  have hcols : tensorCols (eyeMat D D) = D := by
    cases D with
    | zero => rfl
    | succ n => simp [eyeMat, tensorCols, List.range_succ_eq_map]
  rw [hlen, hcols]

/-- Committing an identity transform never bumps the change counter. -/
lemma commit_eye_no_change (D : ℕ) (st : LoopState) (space : String)
    (procs : List String) :
    (commitTransform st space (eyeMat D D) procs).change_count = st.change_count := by
  have heye : ¬ (eyeMat D D ≠ eyeMat (eyeMat D D).length (tensorCols (eyeMat D D))) :=
    not_not_intro (eyeMat_self_shape D)
  by_cases h1 : st.transforms space = none ∨ st.transforms space ≠ some (eyeMat D D)
  · simp [commitTransform, h1, heye]
  · simp [commitTransform, h1]

/-- Claim C6: if the input list equals the target list element-wise (with
the space well-shaped), exact-mode `align_tensors` returns the identity
permutation matrix, and committing it attributes zero change to the space
regardless of the previously stored transform. -/
theorem align_exact_identity (tgts : List Tensor) (names : List String)
    (hne : tgts ≠ [])
    (hdim : ∀ x ∈ tgts, tensorRows x = out_dim tgts)
    (hpairs : ∀ p ∈ tgts.zip tgts, costShapeOk (out_dim tgts) p = true) :
    align_tensors tgts tgts names =
      Except.ok (eyeMat (out_dim tgts) (out_dim tgts)) ∧
    ∀ st space procs,
      (commitTransform st space (eyeMat (out_dim tgts) (out_dim tgts))
          procs).change_count = st.change_count := by
  constructor
  · rw [align_ok_form tgts tgts names hdim hpairs,
      lsa_identity (out_dim tgts) (tgts.zip tgts) (zip_self_eq tgts),
      permMatrix_range]
  · intro st space procs
    exact commit_eye_no_change (out_dim tgts) st space procs

/-- Claim C6 (witness): a concrete 2-row space equal to its target. -/
theorem align_exact_identity_witness :
    ([[[1], [0]]] : List Tensor) ≠ [] ∧
    (∀ x ∈ ([[[1], [0]]] : List Tensor), tensorRows x = out_dim [[[1], [0]]]) ∧
    (∀ p ∈ ([[[1], [0]]] : List Tensor).zip [[[1], [0]]],
      costShapeOk (out_dim [[[1], [0]]]) p = true) ∧
    (align_tensors [[[1], [0]]] [[[1], [0]]] [] =
        Except.ok (eyeMat (out_dim [[[1], [0]]]) (out_dim [[[1], [0]]])) ∧
      ∀ st space procs,
        (commitTransform st space
            (eyeMat (out_dim [[[1], [0]]]) (out_dim [[[1], [0]]])) procs).change_count
          = st.change_count) :=
  ⟨by decide, by decide, by decide,
    align_exact_identity [[[1], [0]]] [] (by decide) (by decide) (by decide)⟩

end MergekitAlign
